import Mathlib

/-!
Shallow embedding of the reactive-data core of `src/vue.js`:

* `observe` / `defineReactive`  — PropertyInterceptor (lines 132-162)
* `Dep`                         — SubscriberSet (lines 178-192)
* `Watcher`                     — Observer (lines 195-216)
* `getValue` / `setValue`       — PathAccessor (lines 165-175)

The JavaScript heap tree is modelled functionally: an observed data tree is
an `RVal`, where every property slot of an object carries the `Dep`
(subscriber list) created for it by `defineReactive`, together with its
stored value.  Mutation (dependency collection in getters, assignment in
setters) is modelled by returning the updated tree.  `Dep.target` is the
`Option Nat` argument threaded through reads (`none` = the global pointer is
null, `some w` = watcher `w` is currently recording).
-/

/-- Primitive JavaScript values that can sit in the data tree. -/
inductive Prim where
  | num (n : Int)
  | str (s : String)
  | boolean (b : Bool)
  | null
  | undef
deriving DecidableEq, Repr

/-- A plain (not yet observed) JavaScript value: a primitive or a nested
object literal, i.e. the shape of `options.data` before `observe` runs. -/
inductive PlainVal where
  | prim (p : Prim)
  | obj (fields : List (String × PlainVal))

/-- Subscriber list of one `Dep` instance (`this.subs`, a JS `Set`):
watcher identities in insertion order, duplicate-free by construction. -/
abbrev Dep := List Nat

/-- An observed (reactive) value.  Each field of an object is a property
slot `(key, dep, storedValue)`: `defineReactive(obj, key, value)` closes
over one `Dep` (`dep`) and the stored `value` for each key. -/
inductive RVal where
  | prim (p : Prim)
  | obj (fields : List (String × Dep × RVal))

/-- `Dep.prototype.addSub`: `this.subs.add(sub)` — a JS `Set` appends the
element in insertion order if it is not already present. -/
def addSub (d : Dep) (w : Nat) : Dep :=
  if w ∈ d then d else d ++ [w]

mutual

/-- `observe(obj)` (vue.js lines 132-136): a primitive is left alone
(`typeof obj !== 'object'` terminates the recursion); for an object every
own key is passed to `defineReactive`, which allocates a fresh empty `Dep`
for the slot and recursively observes the stored value (line 143). -/
def observeV : PlainVal → RVal
  | .prim p => .prim p
  | .obj fs => .obj (observeFields fs)

/-- Field-by-field part of `observe`: `Object.keys(obj).forEach(key =>
defineReactive(obj, key, obj[key]))`. -/
def observeFields : List (String × PlainVal) → List (String × Dep × RVal)
  | [] => []
  | (k, v) :: fs => (k, [], observeV v) :: observeFields fs

end

/-- First-match association lookup: JS own-property lookup on an object
whose keys are unique. -/
def lookupField : List (String × Dep × RVal) → String → Option (Dep × RVal)
  | [], _ => none
  | (k, e) :: fs, key => if k = key then some e else lookupField fs key

/-- The tracked getter body (vue.js lines 147-151):
`Dep.target && dep.addSub(Dep.target); return value;`.  Returns the slot's
dep after dependency collection together with the stored value. -/
def getterRead (tgt : Option Nat) (d : Dep) (v : RVal) : Dep × RVal :=
  match tgt with
  | some w => (addSub d w, v)
  | none => (d, v)

/-- Replace the (first) entry for `key` by `e`, leaving all other slots
untouched — the functional image of mutating one slot's closed-over state. -/
def setFieldEntry : List (String × Dep × RVal) → String → (Dep × RVal) →
    List (String × Dep × RVal)
  | [], _, _ => []
  | (k, e0) :: fs, key, e =>
    if k = key then (k, e) :: fs else (k, e0) :: setFieldEntry fs key e

/-- Replace the stored value of the (first) slot for `key`, keeping its
dep — the functional image of in-place mutation of a subtree that was
reached through a read. -/
def patchFields : List (String × Dep × RVal) → String → RVal →
    List (String × Dep × RVal)
  | [], _, _ => []
  | (k, (d, v)) :: fs, key, v2 =>
    if k = key then (k, (d, v2)) :: fs else (k, (d, v)) :: patchFields fs key v2

/-- Write back an updated subtree at key `k` (no-op when `k` is absent or
the container is a primitive). -/
def patchVal (u : RVal) (k : String) (v2 : RVal) : RVal :=
  match u with
  | .obj fs => .obj (patchFields fs k v2)
  | .prim p => .prim p

/-- Result of one JS property read `u[k]`. -/
inductive ReadResult where
  | ok (v : RVal) (u2 : RVal)
  | typeError

/-- One property read `u[k]` with `Dep.target = tgt`:
* on an object with slot `k`, the tracked getter runs (dependency
  collection, then the stored value is returned);
* on an object without own key `k`, JS yields `undefined` (no getter, no
  subscription);
* on a non-null primitive, JS boxes it and the data key is absent, yielding
  `undefined`;
* on `undefined` or `null`, JS throws a TypeError. -/
def readProp (tgt : Option Nat) (u : RVal) (k : String) : ReadResult :=
  match u with
  | .obj fs =>
    match lookupField fs k with
    | some (d, v) =>
      let r := getterRead tgt d v
      .ok r.2 (.obj (setFieldEntry fs k (r.1, v)))
    | none => .ok (.prim .undef) (.obj fs)
  | .prim .null => .typeError
  | .prim .undef => .typeError
  | .prim p => .ok (.prim .undef) (.prim p)

/-- `getValue` (vue.js lines 165-167) on an already split path:
`path.split('.').reduce((o, k) => o[k], obj)`.  Returns the result
(`Except.error ()` models the thrown TypeError) together with the tree
after the reads' dependency-collection side effects. -/
def getPath (tgt : Option Nat) (u : RVal) : List String → Except Unit RVal × RVal
  | [] => (.ok u, u)
  | k :: ks =>
    match readProp tgt u k with
    | .typeError => (.error (), u)
    | .ok v u2 =>
      let r := getPath tgt v ks
      (r.1, patchVal u2 k r.2)

/-- Accumulator pass of JS `String.prototype.split('.')` with a
one-character separator: segments are the maximal runs between dots, and an
empty input yields the singleton list of the empty string, exactly as in
JS (`"".split('.') === [""]`, `"a..b".split('.') === ["a", "", "b"]`). -/
def splitDotAux : List Char → List Char → List String
  | [], acc => [⟨acc.reverse⟩]
  | c :: cs, acc =>
    if c = '.' then ⟨acc.reverse⟩ :: splitDotAux cs []
    else splitDotAux cs (c :: acc)

/-- `path.split('.')` of JS. -/
def splitPath (path : String) : List String :=
  splitDotAux path.data []

/-- `getValue(obj, path)` with the current `Dep.target`. -/
def getValue (tgt : Option Nat) (u : RVal) (path : String) :
    Except Unit RVal × RVal :=
  getPath tgt u (splitPath path)

/-- JS strict equality `newVal === value` between the incoming plain value
and the stored value: value equality for primitives.  Two objects are `===`
only when they are the same reference; an incoming plain object written
through the setter is a fresh object, never identical to the stored one, so
object comparisons are `false` here. -/
def strictEq : PlainVal → RVal → Bool
  | .prim p, .prim q => decide (p = q)
  | _, _ => false

/-- The tracked setter body (vue.js lines 152-160) for a slot with dep `d`
currently storing `old`: if `newVal === value` nothing happens (no
notification); otherwise the stored value becomes `newVal`, `observe(newVal)`
converts it recursively, and `dep.notify()` runs.  Returns the new stored
value and the list of watchers whose `update()` is invoked by `notify`. -/
def slotWrite (d : Dep) (old : RVal) (newVal : PlainVal) : RVal × List Nat :=
  if strictEq newVal old then (old, [])
  else (observeV newVal, d)

/-- Result of `setValue`: `ok` carries the tree after the write and the
watchers notified; `threw` is a TypeError while walking; `untracked` means
the final assignment did not go through a tracked setter (a plain JS
property creation on a missing key, or a silent no-op on a boxed
primitive) — the reactive tree model does not track such plain slots. -/
inductive WriteResult where
  | ok (tree : RVal) (notified : List Nat)
  | threw (tree : RVal)
  | untracked (tree : RVal)

/-- `setValue` (vue.js lines 170-175) on an already split non-empty path:
walk `keys.reduce((o, k) => o[k], obj)` over all but the last segment
(ordinary reads, hence through getters), then `target[lastKey] = newVal`
through the slot's tracked setter. -/
def setPath (tgt : Option Nat) (u : RVal) : List String → PlainVal → WriteResult
  | [], _ => .untracked u
  | [k], newVal =>
    match u with
    | .obj fs =>
      match lookupField fs k with
      | some (d, old) =>
        let r := slotWrite d old newVal
        .ok (.obj (patchFields fs k r.1)) r.2
      | none => .untracked u
    | .prim .null => .threw u
    | .prim .undef => .threw u
    | .prim _ => .untracked u
  | k :: k2 :: ks, newVal =>
    match readProp tgt u k with
    | .typeError => .threw u
    | .ok v u2 =>
      match setPath tgt v (k2 :: ks) newVal with
      | .ok v2 ns => .ok (patchVal u2 k v2) ns
      | .threw v2 => .threw (patchVal u2 k v2)
      | .untracked v2 => .untracked (patchVal u2 k v2)

/-- `setValue(obj, path, newVal)` with the current `Dep.target`. -/
def setValue (tgt : Option Nat) (u : RVal) (path : String) (newVal : PlainVal) :
    WriteResult :=
  setPath tgt u (splitPath path) newVal

/-- Outcome of `new Watcher(vm, exp, cb)` (vue.js lines 201-210): the tree
after the recording read, the value of `Dep.target` when the constructor
returns or propagates an exception, and whether it threw.  The source sets
`Dep.target = this`, calls `getValue`, and resets `Dep.target = null` only
on the fall-through line after the call — there is no `try/finally`, so a
throwing `getValue` skips the reset. -/
structure ConstructResult where
  tree : RVal
  target : Option Nat
  threw : Bool

/-- `Watcher` construction for watcher identity `w` over data tree `root`
with expression `exp`. -/
def watcherConstruct (w : Nat) (root : RVal) (exp : String) : ConstructResult :=
  match getValue (some w) root exp with
  | (.ok _, t) => ⟨t, none, false⟩
  | (.error _, t) => ⟨t, some w, true⟩

/-- The dep (subscriber list) of the slot reached by a non-empty key path. -/
def depAt (u : RVal) : List String → Option Dep
  | [] => none
  | [k] =>
    match u with
    | .obj fs => (lookupField fs k).map (fun e => e.1)
    | .prim _ => none
  | k :: k2 :: ks =>
    match u with
    | .obj fs =>
      match lookupField fs k with
      | some (_, v) => depAt v (k2 :: ks)
      | none => none
    | .prim _ => none

/-- The stored value reached by a key path (`valAt u [] = u`). -/
def valAt (u : RVal) : List String → Option RVal
  | [] => some u
  | k :: ks =>
    match u with
    | .obj fs =>
      match lookupField fs k with
      | some (_, v) => valAt v ks
      | none => none
    | .prim _ => none

/-- Does every segment of the path resolve through a tracked slot?  (True
iff the dotted path denotes an existing chain of intercepted properties.) -/
def tracksPath (u : RVal) : List String → Bool
  | [] => true
  | k :: ks =>
    match u with
    | .obj fs =>
      match lookupField fs k with
      | some (_, v) => tracksPath v ks
      | none => false
    | .prim _ => false

/-- Does the key path lead to an own field of the plain value? -/
def hasFieldPath : PlainVal → List String → Bool
  | _, [] => false
  | .prim _, _ :: _ => false
  | .obj fs, [k] => (fs.lookup k).isSome
  | .obj fs, k :: k2 :: ks =>
    match fs.lookup k with
    | some v => hasFieldPath v (k2 :: ks)
    | none => false

/-- `Dep.prototype.notify` (vue.js lines 189-191) is
`this.subs.forEach(sub => sub.update())`.  A JS `Set` iterates live and in
insertion order: an element appended while the iteration is in progress is
also visited, and no removal operation exists in this core, so the list can
only grow (via `addSub` when a callback constructs a new `Watcher`).
`upd w s` is the subscriber list after watcher `w`'s `update()` returns,
`i` the current iteration position, `visited` the watchers already updated.
`fuel` bounds the visit count: the source itself can loop forever when
every update keeps growing the set (the synchronous-notification hazard the
design documents). -/
def forEachNotify (upd : Nat → List Nat → List Nat) :
    Nat → Nat → List Nat → List Nat → List Nat
  | 0, _, _, visited => visited
  | fuel + 1, i, subs, visited =>
    if h : i < subs.length then
      forEachNotify upd fuel (i + 1) (upd (subs.get ⟨i, h⟩) subs)
        (visited ++ [subs.get ⟨i, h⟩])
    else visited

/-- `dep.notify()` with the given per-watcher update effect: the sequence
of watchers whose `update()` (and hence callback) runs, in order. -/
def depNotify (fuel : Nat) (subs : List Nat)
    (upd : Nat → List Nat → List Nat) : List Nat :=
  forEachNotify upd fuel 0 subs []

/-- Update effect in which watcher 1's callback constructs a new `Watcher`
that subscribes identity 2 to the notifying slot (`dep.addSub` during the
recording read of the nested construction). -/
def updAddTwo : Nat → List Nat → List Nat :=
  fun w s => if w = 1 then addSub s 2 else s

/-- Example data literal with a nested path `a.b.c` and a sibling `a.d`. -/
def exTreeABC : PlainVal :=
  .obj [("a", .obj [("b", .obj [("c", .prim (.num 1))]),
                    ("d", .prim (.num 2))])]

/-- The observed (intercepted) tree for `exTreeABC`. -/
def exRootABC : RVal := observeV exTreeABC

/-- The observed tree for the spec's running example `{a: {b: 2}}`. -/
def exRootAB : RVal :=
  observeV (.obj [("a", .obj [("b", .prim (.num 2))])])

/-- `exRootAB` after `new Watcher(vm, "a.b", cb)` for watcher identity 1:
the recording read subscribes 1 to the `a` slot and the `b` slot. -/
def watchedAB : RVal := (watcherConstruct 1 exRootAB "a.b").tree

/-- The observed tree for `{a: 2}`: a tracked slot holding a primitive. -/
def exRootPrimA : RVal := observeV (.obj [("a", .prim (.num 2))])

/-! ### Basic lemmas about slot lists -/

theorem lookupField_setFieldEntry_ne (fs : List (String × Dep × RVal))
    (k k2 : String) (e : Dep × RVal) (hne : k2 ≠ k) :
    lookupField (setFieldEntry fs k e) k2 = lookupField fs k2 := by
  induction fs with
  | nil => rfl
  | cons hd tl ih =>
    obtain ⟨k0, e0⟩ := hd
    by_cases hk : k0 = k
    · subst hk
      simp only [setFieldEntry, if_pos rfl, lookupField]
      rw [if_neg (fun h => hne h.symm), if_neg (fun h => hne h.symm)]
    · simp only [setFieldEntry, if_neg hk, lookupField]
      by_cases hk2 : k0 = k2
      · rw [if_pos hk2, if_pos hk2]
      · rw [if_neg hk2, if_neg hk2, ih]

theorem lookupField_setFieldEntry_self (fs : List (String × Dep × RVal))
    (k : String) (e e0 : Dep × RVal) (h : lookupField fs k = some e0) :
    lookupField (setFieldEntry fs k e) k = some e := by
  induction fs with
  | nil => simp [lookupField] at h
  | cons hd tl ih =>
    obtain ⟨k0, e1⟩ := hd
    by_cases hk : k0 = k
    · subst hk
      simp [setFieldEntry, lookupField]
    · simp only [setFieldEntry, if_neg hk, lookupField, if_neg hk] at h ⊢
      exact ih h

theorem setFieldEntry_absent (fs : List (String × Dep × RVal)) (k : String)
    (e : Dep × RVal) (h : lookupField fs k = none) : setFieldEntry fs k e = fs := by
  induction fs with
  | nil => rfl
  | cons hd tl ih =>
    obtain ⟨k0, e0⟩ := hd
    by_cases hk : k0 = k
    · simp [lookupField, if_pos hk] at h
    · simp only [lookupField, if_neg hk] at h
      simp only [setFieldEntry, if_neg hk, ih h]

theorem setFieldEntry_eq_self (fs : List (String × Dep × RVal)) (k : String)
    (e : Dep × RVal) (h : lookupField fs k = some e) : setFieldEntry fs k e = fs := by
  induction fs with
  | nil => simp [lookupField] at h
  | cons hd tl ih =>
    obtain ⟨k0, e0⟩ := hd
    by_cases hk : k0 = k
    · subst hk
      simp only [lookupField, if_true, eq_self_iff_true, Option.some.injEq] at h
      subst h
      simp [setFieldEntry]
    · simp only [lookupField, if_neg hk] at h
      simp only [setFieldEntry, if_neg hk, ih h]

theorem lookupField_patchFields_ne (fs : List (String × Dep × RVal))
    (k k2 : String) (v2 : RVal) (hne : k2 ≠ k) :
    lookupField (patchFields fs k v2) k2 = lookupField fs k2 := by
  induction fs with
  | nil => rfl
  | cons hd tl ih =>
    obtain ⟨k0, d0, v0⟩ := hd
    by_cases hk : k0 = k
    · subst hk
      simp only [patchFields, if_pos rfl, lookupField]
      rw [if_neg (fun h => hne h.symm), if_neg (fun h => hne h.symm)]
    · simp only [patchFields, if_neg hk, lookupField]
      by_cases hk2 : k0 = k2
      · rw [if_pos hk2, if_pos hk2]
      · rw [if_neg hk2, if_neg hk2, ih]

theorem lookupField_patchFields_self (fs : List (String × Dep × RVal))
    (k : String) (d : Dep) (v v2 : RVal) (h : lookupField fs k = some (d, v)) :
    lookupField (patchFields fs k v2) k = some (d, v2) := by
  induction fs with
  | nil => simp [lookupField] at h
  | cons hd tl ih =>
    obtain ⟨k0, d0, v0⟩ := hd
    by_cases hk : k0 = k
    · subst hk
      simp only [lookupField, if_true, eq_self_iff_true, Option.some.injEq,
        Prod.mk.injEq] at h
      obtain ⟨rfl, rfl⟩ := h
      simp [patchFields, lookupField]
    · simp only [lookupField, if_neg hk] at h ⊢
      simp only [patchFields, if_neg hk, lookupField, if_neg hk]
      exact ih h

theorem patchFields_absent (fs : List (String × Dep × RVal)) (k : String)
    (v2 : RVal) (h : lookupField fs k = none) : patchFields fs k v2 = fs := by
  induction fs with
  | nil => rfl
  | cons hd tl ih =>
    obtain ⟨k0, d0, v0⟩ := hd
    by_cases hk : k0 = k
    · simp [lookupField, if_pos hk] at h
    · simp only [lookupField, if_neg hk] at h
      simp only [patchFields, if_neg hk, ih h]

theorem patchFields_self (fs : List (String × Dep × RVal)) (k : String)
    (d : Dep) (v : RVal) (h : lookupField fs k = some (d, v)) :
    patchFields fs k v = fs := by
  induction fs with
  | nil => simp [lookupField] at h
  | cons hd tl ih =>
    obtain ⟨k0, d0, v0⟩ := hd
    by_cases hk : k0 = k
    · subst hk
      simp only [lookupField, if_true, eq_self_iff_true, Option.some.injEq,
        Prod.mk.injEq] at h
      obtain ⟨rfl, rfl⟩ := h
      simp [patchFields]
    · simp only [lookupField, if_neg hk] at h
      simp only [patchFields, if_neg hk, ih h]

/-! ### Reads with `Dep.target = null` do not change the tree -/

theorem readProp_some_found (fs : List (String × Dep × RVal)) (k : String)
    (d : Dep) (v : RVal) (w : Nat) (h : lookupField fs k = some (d, v)) :
    readProp (some w) (.obj fs) k
      = .ok v (.obj (setFieldEntry fs k (addSub d w, v))) := by
  simp [readProp, h, getterRead]

theorem readProp_none_found (fs : List (String × Dep × RVal)) (k : String)
    (d : Dep) (v : RVal) (h : lookupField fs k = some (d, v)) :
    readProp none (.obj fs) k = .ok v (.obj fs) := by
  simp [readProp, h, getterRead, setFieldEntry_eq_self fs k (d, v) h]

theorem getPath_none_tree (ks : List String) (u : RVal) :
    (getPath none u ks).2 = u := by
  induction ks generalizing u with
  | nil => rfl
  | cons k ks ih =>
    match u with
    | .prim .null => rfl
    | .prim .undef => rfl
    | .prim (.num n) => simp [getPath, readProp, patchVal, ih]
    | .prim (.str s) => simp [getPath, readProp, patchVal, ih]
    | .prim (.boolean b) => simp [getPath, readProp, patchVal, ih]
    | .obj fs =>
      cases hlk : lookupField fs k with
      | some e =>
        obtain ⟨d, v⟩ := e
        rw [getPath, readProp_none_found fs k d v hlk]
        simp only [patchVal, ih, patchFields_self fs k d v hlk]
      | none =>
        simp only [getPath, readProp, hlk, patchVal, ih,
          patchFields_absent fs k _ hlk]

theorem getPath_none_of_valAt (ks : List String) (u v : RVal)
    (h : valAt u ks = some v) : getPath none u ks = (.ok v, u) := by
  induction ks generalizing u with
  | nil =>
    simp only [valAt, Option.some.injEq] at h
    simp [getPath, h]
  | cons k ks ih =>
    match u with
    | .prim p => simp [valAt] at h
    | .obj fs =>
      cases hlk : lookupField fs k with
      | some e =>
        obtain ⟨d, v0⟩ := e
        simp only [valAt, hlk] at h
        rw [getPath, readProp_none_found fs k d v0 hlk]
        simp only [ih v0 h, patchVal, patchFields_self fs k d v0 hlk]
      | none => simp [valAt, hlk] at h

theorem depAt_cons_step (fs : List (String × Dep × RVal)) (k : String)
    (d : Dep) (v : RVal) (h : lookupField fs k = some (d, v)) (c : String)
    (q : List String) : depAt (.obj fs) (k :: c :: q) = depAt v (c :: q) := by
  simp only [depAt, h]

theorem depAt_obj_congr (fs fs2 : List (String × Dep × RVal)) (k : String)
    (q : List String) (h : lookupField fs2 k = lookupField fs k) :
    depAt (.obj fs2) (k :: q) = depAt (.obj fs) (k :: q) := by
  cases q with
  | nil => simp only [depAt, h]
  | cons k2 q2 => simp only [depAt, h]

/-! ### A recording read subscribes the watcher to every slot on its path
and touches nothing else -/

theorem getPath_subscribes (w : Nat) (ks : List String) (root : RVal)
    (h : tracksPath root ks = true) :
    (∃ v0, (getPath (some w) root ks).1 = Except.ok v0)
  ∧ (∀ i, i < ks.length →
      depAt (getPath (some w) root ks).2 (ks.take (i+1))
        = (depAt root (ks.take (i+1))).map (fun d => addSub d w))
  ∧ (∀ q, (∀ i, q ≠ ks.take (i+1)) →
      depAt (getPath (some w) root ks).2 q = depAt root q) := by
  induction ks generalizing root with
  | nil =>
    refine ⟨⟨root, rfl⟩, ?_, ?_⟩
    · intro i hi
      exact absurd hi (Nat.not_lt_zero i)
    · intro q hq
      rfl
  | cons k ks ih =>
    cases root with
    | prim p => simp [tracksPath] at h
    | obj fs =>
      cases hlk : lookupField fs k with
      | none => simp [tracksPath, hlk] at h
      | some e =>
        obtain ⟨d, v⟩ := e
        simp only [tracksPath, hlk] at h
        have hread := readProp_some_found fs k d v w hlk
        have hgp : getPath (some w) (.obj fs) (k :: ks)
            = ((getPath (some w) v ks).1,
               patchVal (.obj (setFieldEntry fs k (addSub d w, v))) k
                 (getPath (some w) v ks).2) := by
          simp only [getPath, hread]
        obtain ⟨ih1, ih2, ih3⟩ := ih v h
        have hlk1 : lookupField (setFieldEntry fs k (addSub d w, v)) k
            = some (addSub d w, v) :=
          lookupField_setFieldEntry_self fs k (addSub d w, v) (d, v) hlk
        have hlk2 : lookupField
            (patchFields (setFieldEntry fs k (addSub d w, v)) k
              (getPath (some w) v ks).2) k
            = some (addSub d w, (getPath (some w) v ks).2) :=
          lookupField_patchFields_self _ k (addSub d w) v _ hlk1
        have hlkne : ∀ k2, k2 ≠ k → lookupField
            (patchFields (setFieldEntry fs k (addSub d w, v)) k
              (getPath (some w) v ks).2) k2 = lookupField fs k2 := by
          intro k2 hk2
          rw [lookupField_patchFields_ne _ k k2 _ hk2,
            lookupField_setFieldEntry_ne fs k k2 _ hk2]
        refine ⟨?_, ?_, ?_⟩
        · rw [hgp]
          obtain ⟨v0, hv0⟩ := ih1
          exact ⟨v0, hv0⟩
        · intro i hi
          rw [hgp]
          cases i with
          | zero =>
            simp [depAt, patchVal, hlk2, hlk]
          | succ j =>
            have hj : j < ks.length := by
              simpa using Nat.lt_of_succ_lt_succ hi
            have hstep := ih2 j hj
            cases ks with
            | nil => exact absurd hj (Nat.not_lt_zero j)
            | cons a as =>
              simp only [List.take_succ_cons] at hstep ⊢
              simp only [patchVal]
              rw [depAt_cons_step _ _ _ _ hlk2, depAt_cons_step _ _ _ _ hlk]
              exact hstep
        · intro q hq
          rw [hgp]
          cases q with
          | nil => rfl
          | cons k2 q2 =>
            by_cases hk2 : k2 = k
            · subst hk2
              have hq2nil : q2 ≠ [] := by
                intro hc
                exact hq 0 (by simp [hc])
              have hq2 : ∀ j, q2 ≠ ks.take (j + 1) := by
                intro j hc
                exact hq (j + 1) (by simp [List.take_succ_cons, hc])
              cases q2 with
              | nil => exact absurd rfl hq2nil
              | cons c q3 =>
                simp only [patchVal]
                rw [depAt_cons_step _ _ _ _ hlk2, depAt_cons_step _ _ _ _ hlk]
                exact ih3 (c :: q3) hq2
            · exact depAt_obj_congr fs _ k2 q2 (hlkne k2 hk2)

/-! ### Freshly observed values: every own field becomes a slot with an
empty subscriber list -/

theorem lookupField_observeFields (fs : List (String × PlainVal)) (k : String) :
    lookupField (observeFields fs) k
      = (fs.lookup k).map (fun v => ([], observeV v)) := by
  induction fs with
  | nil => rfl
  | cons hd tl ih =>
    obtain ⟨k0, v0⟩ := hd
    by_cases hk : k0 = k
    · subst hk
      simp [observeFields, lookupField, List.lookup]
    · have hbeq : (k == k0) = false :=
        beq_eq_false_iff_ne.mpr (fun hc => hk hc.symm)
      simp only [observeFields, lookupField, if_neg hk, List.lookup, hbeq]
      exact ih

theorem depAt_observeV (q : List String) (nv : PlainVal)
    (h : hasFieldPath nv q = true) : depAt (observeV nv) q = some [] := by
  induction q generalizing nv with
  | nil => simp [hasFieldPath] at h
  | cons k q ih =>
    cases nv with
    | prim p => simp [hasFieldPath] at h
    | obj fs =>
      cases q with
      | nil =>
        simp only [hasFieldPath] at h
        cases hlk : fs.lookup k with
        | none => rw [hlk] at h; simp at h
        | some v =>
          simp only [observeV, depAt, lookupField_observeFields, hlk,
            Option.map_some']
      | cons k2 q2 =>
        simp only [hasFieldPath] at h
        cases hlk : fs.lookup k with
        | none => rw [hlk] at h; simp at h
        | some v =>
          rw [hlk] at h
          have hobs : lookupField (observeFields fs) k
              = some ([], observeV v) := by
            rw [lookupField_observeFields, hlk, Option.map_some']
          rw [observeV, depAt_cons_step _ _ _ _ hobs]
          exact ih v h

theorem depAt_append_of_valAt (ks : List String) (t v : RVal) (q : List String)
    (hval : valAt t ks = some v) (hq : q ≠ []) :
    depAt t (ks ++ q) = depAt v q := by
  induction ks generalizing t with
  | nil =>
    simp only [valAt, Option.some.injEq] at hval
    rw [hval, List.nil_append]
  | cons k ks ih =>
    cases t with
    | prim p => simp [valAt] at hval
    | obj fs =>
      cases hlk : lookupField fs k with
      | none => simp [valAt, hlk] at hval
      | some e =>
        obtain ⟨d0, x⟩ := e
        simp only [valAt, hlk] at hval
        have hcons : (k :: ks) ++ q = k :: (ks ++ q) := rfl
        rw [hcons]
        cases hkq : ks ++ q with
        | nil => exact absurd (List.append_eq_nil.mp hkq).2 hq
        | cons c rest =>
          rw [depAt_cons_step _ _ _ _ hlk, ← hkq]
          exact ih x hval

theorem valAt_cons_found (fs : List (String × Dep × RVal)) (k : String)
    (d0 : Dep) (v : RVal) (h : lookupField fs k = some (d0, v))
    (q : List String) : valAt (.obj fs) (k :: q) = valAt v q := by
  simp only [valAt, h]

/-! ### The tracked setter through `setValue` -/

theorem setPath_ok_spec (ks : List String) (u t : RVal) (nv : PlainVal)
    (ns : List Nat) (d : Dep) (oldv : RVal)
    (hok : setPath none u ks nv = .ok t ns)
    (hd : depAt u ks = some d) (hold : valAt u ks = some oldv) :
    depAt t ks = some d
  ∧ ns = (if strictEq nv oldv then [] else d)
  ∧ valAt t ks = some (if strictEq nv oldv then oldv else observeV nv) := by
  induction ks generalizing u t with
  | nil => simp [depAt] at hd
  | cons k ks ih =>
    cases ks with
    | nil =>
      cases u with
      | prim p => simp [depAt] at hd
      | obj fs =>
        cases hlk : lookupField fs k with
        | none => simp [depAt, hlk] at hd
        | some e =>
          obtain ⟨d0, old0⟩ := e
          simp only [depAt, hlk, Option.map_some', Option.some.injEq] at hd
          subst hd
          rw [valAt_cons_found fs k d0 old0 hlk] at hold
          simp only [valAt, Option.some.injEq] at hold
          subst hold
          have hsp : setPath none (.obj fs) [k] nv
              = .ok (.obj (patchFields fs k (slotWrite d0 old0 nv).1))
                  (slotWrite d0 old0 nv).2 := by
            simp only [setPath, hlk]
          rw [hsp] at hok
          simp only [WriteResult.ok.injEq] at hok
          obtain ⟨ht, hns⟩ := hok
          by_cases hstrict : strictEq nv old0
          · have hsw : slotWrite d0 old0 nv = (old0, []) := by
              simp [slotWrite, hstrict]
            simp only [hsw] at ht hns
            rw [patchFields_self fs k d0 old0 hlk] at ht
            rw [← ht, ← hns]
            exact ⟨by simp [depAt, hlk], by simp [hstrict],
              by simp [valAt, hlk, hstrict]⟩
          · have hsw : slotWrite d0 old0 nv = (observeV nv, d0) := by
              simp [slotWrite, hstrict]
            simp only [hsw] at ht hns
            rw [← ht, ← hns]
            refine ⟨?_, by simp [hstrict], ?_⟩
            · simp [depAt, lookupField_patchFields_self fs k d0 old0 _ hlk]
            · simp [valAt, lookupField_patchFields_self fs k d0 old0 _ hlk,
                hstrict]
    | cons k2 ks2 =>
      cases u with
      | prim p => simp [depAt] at hd
      | obj fs =>
        cases hlk : lookupField fs k with
        | none => simp [depAt, hlk] at hd
        | some e =>
          obtain ⟨d0, v⟩ := e
          rw [depAt_cons_step fs k d0 v hlk] at hd
          rw [valAt_cons_found fs k d0 v hlk] at hold
          have hsp : setPath none (.obj fs) (k :: k2 :: ks2) nv
              = match setPath none v (k2 :: ks2) nv with
                | .ok v2 ns2 => .ok (patchVal (.obj fs) k v2) ns2
                | .threw v2 => .threw (patchVal (.obj fs) k v2)
                | .untracked v2 => .untracked (patchVal (.obj fs) k v2) := by
            simp only [setPath, readProp_none_found fs k d0 v hlk]
          rw [hsp] at hok
          cases hrec : setPath none v (k2 :: ks2) nv with
          | threw v2 => simp [hrec] at hok
          | untracked v2 => simp [hrec] at hok
          | ok v2 ns2 =>
            simp only [hrec, WriteResult.ok.injEq] at hok
            obtain ⟨ht, hns⟩ := hok
            subst hns
            obtain ⟨ihd, ihns, ihval⟩ := ih v v2 hrec hd hold
            have hlk2 : lookupField (patchFields fs k v2) k = some (d0, v2) :=
              lookupField_patchFields_self fs k d0 v v2 hlk
            rw [← ht]
            refine ⟨?_, ihns, ?_⟩
            · simp only [patchVal]
              rw [depAt_cons_step _ k d0 v2 hlk2]
              exact ihd
            · simp only [patchVal]
              rw [valAt_cons_found _ k d0 v2 hlk2]
              exact ihval

/-! ### `addSub` facts: JS `Set.add` appends if absent -/

theorem addSub_grow (s : Dep) (w : Nat) : s <+: addSub s w := by
  unfold addSub
  split
  · exact ⟨[], List.append_nil s⟩
  · exact ⟨[w], rfl⟩

theorem mem_addSub_self (s : Dep) (w : Nat) : w ∈ addSub s w := by
  unfold addSub
  split
  · assumption
  · simp

theorem addSub_nodup (s : Dep) (w : Nat) (h : s.Nodup) : (addSub s w).Nodup := by
  unfold addSub
  split
  · exact h
  · rename_i hw
    rw [List.nodup_append]
    exact ⟨h, List.nodup_singleton w, by simpa [List.disjoint_singleton] using hw⟩

theorem addSub_idem (d : Dep) (w : Nat) : addSub (addSub d w) w = addSub d w := by
  have h := mem_addSub_self d w
  conv_lhs => rw [addSub]
  rw [if_pos h]

/-! ### Live `Set.forEach` iteration in `Dep.notify` -/

theorem forEachNotify_stop (upd : Nat → List Nat → List Nat) (fuel i : Nat)
    (subs visited : List Nat) (h : ¬ i < subs.length) :
    forEachNotify upd (fuel + 1) i subs visited = visited := by
  rw [forEachNotify, dif_neg h]

theorem forEachNotify_step (upd : Nat → List Nat → List Nat) (fuel i : Nat)
    (subs visited : List Nat) (h : i < subs.length) :
    forEachNotify upd (fuel + 1) i subs visited
      = forEachNotify upd fuel (i + 1) (upd (subs.get ⟨i, h⟩) subs)
          (visited ++ [subs.get ⟨i, h⟩]) := by
  rw [forEachNotify, dif_pos h]

theorem forEachNotify_visits_take (upd : Nat → List Nat → List Nat)
    (hgrow : ∀ w s, s <+: upd w s) :
    ∀ fuel i subs visited n, n ≤ subs.length → n - i ≤ fuel →
      (visited ++ (subs.take n).drop i) <+: forEachNotify upd fuel i subs visited := by
  intro fuel
  induction fuel with
  | zero =>
    intro i subs visited n hn hf
    have hdrop : (subs.take n).drop i = [] :=
      List.drop_eq_nil_of_le (by rw [List.length_take]; omega)
    rw [hdrop, List.append_nil, forEachNotify]
  | succ fuel ih =>
    intro i subs visited n hn hf
    by_cases h : i < subs.length
    · rw [forEachNotify_step upd fuel i subs visited h]
      have hlen : n ≤ (upd (subs.get ⟨i, h⟩) subs).length :=
        le_trans hn (hgrow (subs.get ⟨i, h⟩) subs).length_le
      have hrec := ih (i + 1) (upd (subs.get ⟨i, h⟩) subs)
        (visited ++ [subs.get ⟨i, h⟩]) n hlen (by omega)
      by_cases hin : i < n
      · have hitake : i < (subs.take n).length := by
          rw [List.length_take]; omega
        have hcons : (subs.take n).drop i
            = subs.get ⟨i, h⟩ :: (subs.take n).drop (i + 1) := by
          rw [List.drop_eq_getElem_cons hitake]
          congr 1
          rw [List.getElem_take, List.get_eq_getElem]
        have htk : (upd (subs.get ⟨i, h⟩) subs).take n = subs.take n := by
          obtain ⟨tail, htail⟩ := hgrow (subs.get ⟨i, h⟩) subs
          rw [← htail, List.take_append_of_le_length hn]
        rw [htk] at hrec
        rw [hcons]
        have hassoc : visited ++ (subs.get ⟨i, h⟩ :: (subs.take n).drop (i + 1))
            = (visited ++ [subs.get ⟨i, h⟩]) ++ (subs.take n).drop (i + 1) := by
          simp
        rw [hassoc]
        exact hrec
      · have hdrop : (subs.take n).drop i = [] :=
          List.drop_eq_nil_of_le (by rw [List.length_take]; omega)
        rw [hdrop, List.append_nil]
        refine List.IsPrefix.trans ⟨[subs.get ⟨i, h⟩]
          ++ ((upd (subs.get ⟨i, h⟩) subs).take n).drop (i + 1), ?_⟩ hrec
        simp
    · rw [forEachNotify_stop upd fuel i subs visited h]
      have hdrop : (subs.take n).drop i = [] :=
        List.drop_eq_nil_of_le (by rw [List.length_take]; omega)
      rw [hdrop, List.append_nil]

theorem forEachNotify_visited_take_form (upd : Nat → List Nat → List Nat)
    (hgrow : ∀ w s, s <+: upd w s)
    (hpres : ∀ w s, s.Nodup → (upd w s).Nodup) :
    ∀ fuel i subs, subs.Nodup →
      ∃ (m : Nat) (sf : List Nat),
        forEachNotify upd fuel i subs (subs.take i) = sf.take m
        ∧ sf.Nodup := by
  intro fuel
  induction fuel with
  | zero =>
    intro i subs hnd
    exact ⟨i, subs, rfl, hnd⟩
  | succ fuel ih =>
    intro i subs hnd
    by_cases h : i < subs.length
    · rw [forEachNotify_step upd fuel i subs _ h]
      have htake : subs.take i ++ [subs.get ⟨i, h⟩] = subs.take (i + 1) := by
        have hc := List.take_concat_get subs i h
        rw [List.concat_eq_append] at hc
        rw [List.get_eq_getElem]
        exact hc
      rw [htake]
      have htk : (upd (subs.get ⟨i, h⟩) subs).take (i + 1) = subs.take (i + 1) := by
        obtain ⟨tail, htail⟩ := hgrow (subs.get ⟨i, h⟩) subs
        rw [← htail, List.take_append_of_le_length (by omega)]
      rw [← htk]
      exact ih (i + 1) _ (hpres _ _ hnd)
    · rw [forEachNotify_stop upd fuel i subs _ h]
      exact ⟨i, subs, rfl, hnd⟩

/-! ### Claim theorems -/

/-- C1 (counterexample): the claim says a `Watcher` on `"a.b.c"` is
subscribed to the `c` slot on `root.a.b` and to no other slot — in
particular not to the `a` slot on `root`.  On the code, `getValue` reads
`root.a` through the tracked getter of the `a` slot while `Dep.target` is
the new watcher, so the watcher IS added to the `a` slot's SubscriberSet:
on the tree `observe({a: {b: {c: 1}, d: 2}})`, the `a` slot's dep goes from
`[]` to `[1]`. -/
theorem watcher_abc_subscribes_a_slot_cex :
    depAt exRootABC ["a"] = some []
  ∧ depAt (watcherConstruct 1 exRootABC "a.b.c").tree ["a"] = some [1] :=
  ⟨rfl, rfl⟩

/-- C1 (amended): constructing `Watcher(root, "a.b.c", cb)` where
`root.a.b.c` exists (all three segments resolve through tracked slots)
completes without throwing and subscribes the watcher to exactly the slots
along the path — the `a` slot on `root`, the `b` slot on `root.a` and the
`c` slot on `root.a.b` — while every other slot (in particular every
sibling slot) keeps its subscriber set unchanged. -/
theorem watcher_abc_subscribes_each_slot_on_path (w : Nat) (root : RVal)
    (h : tracksPath root ["a", "b", "c"] = true) :
    (watcherConstruct w root "a.b.c").threw = false
  ∧ (∀ p, p ∈ [["a"], ["a", "b"], ["a", "b", "c"]] →
      depAt (watcherConstruct w root "a.b.c").tree p
        = (depAt root p).map (fun d => addSub d w))
  ∧ (∀ q, q ∉ [["a"], ["a", "b"], ["a", "b", "c"]] →
      depAt (watcherConstruct w root "a.b.c").tree q = depAt root q) := by
  obtain ⟨⟨v0, hok⟩, h1, h2⟩ := getPath_subscribes w ["a", "b", "c"] root h
  have hv : getValue (some w) root "a.b.c"
      = (Except.ok v0, (getPath (some w) root ["a", "b", "c"]).2) := by
    have hpair : getValue (some w) root "a.b.c"
        = ((getPath (some w) root ["a", "b", "c"]).1,
           (getPath (some w) root ["a", "b", "c"]).2) := rfl
    rw [hpair, hok]
  have hcon : watcherConstruct w root "a.b.c"
      = ⟨(getPath (some w) root ["a", "b", "c"]).2, none, false⟩ := by
    simp only [watcherConstruct, hv]
  refine ⟨by rw [hcon], ?_, ?_⟩
  · intro p hp
    rw [hcon]
    simp only [List.mem_cons, List.not_mem_nil, or_false] at hp
    rcases hp with hp | hp | hp
    · subst hp
      exact h1 0 (by decide)
    · subst hp
      exact h1 1 (by decide)
    · subst hp
      exact h1 2 (by decide)
  · intro q hq
    rw [hcon]
    simp only [List.mem_cons, List.not_mem_nil, or_false, not_or] at hq
    obtain ⟨hq1, hq2, hq3⟩ := hq
    refine h2 q ?_
    intro i
    match i with
    | 0 => exact hq1
    | 1 => exact hq2
    | n + 2 =>
      rw [List.take_of_length_le
        (by simp only [List.length_cons, List.length_nil]; omega)]
      exact hq3

/-- C1 (witness): the amended theorem applied to the concrete tree
`observe({a: {b: {c: 1}, d: 2}})` and watcher identity 1. -/
theorem watcher_abc_subscribes_each_slot_on_path_witness :
    (watcherConstruct 1 exRootABC "a.b.c").threw = false
  ∧ depAt (watcherConstruct 1 exRootABC "a.b.c").tree ["a"] = some [1]
  ∧ depAt (watcherConstruct 1 exRootABC "a.b.c").tree ["a", "b"] = some [1]
  ∧ depAt (watcherConstruct 1 exRootABC "a.b.c").tree ["a", "b", "c"]
      = some [1]
  ∧ depAt (watcherConstruct 1 exRootABC "a.b.c").tree ["a", "d"]
      = depAt exRootABC ["a", "d"] := by
  have h := watcher_abc_subscribes_each_slot_on_path 1 exRootABC rfl
  exact ⟨h.1,
    (h.2.1 ["a"] (by decide)).trans (by decide),
    (h.2.1 ["a", "b"] (by decide)).trans (by decide),
    (h.2.1 ["a", "b", "c"] (by decide)).trans (by decide),
    h.2.2 ["a", "d"] (by decide)⟩

/-- C2 (code bug): the `Watcher` constructor sets `Dep.target = this`,
performs `getValue(vm.$data, exp)` and resets `Dep.target = null` only on
the next line; there is no `try/finally`.  With data `{a: {b: 2}}` and
expression `"a.x.y"`, `getValue` throws (reading `y` from `undefined`), the
reset line is skipped, and `Dep.target` is left pointing at the new watcher
when the exception propagates — the claim requires it to be null on every
exit path. -/
theorem watcher_constructor_throw_leaves_target_set :
    (watcherConstruct 1 exRootAB "a.x.y").threw = true
  ∧ (watcherConstruct 1 exRootAB "a.x.y").target = some 1 :=
  ⟨rfl, rfl⟩

/-- C9: on `observe({a: {b: 2}})`, `getValue` at `"a.b"` returns 2; after a
watcher (identity 1) is subscribed, `setValue` of 5 at `"a.b"` goes through
the tracked setter, stores 5, and notifies exactly the `a.b` slot's
subscriber (watcher 1); a subsequent `getValue` returns 5. -/
theorem pathaccessor_get_set_roundtrip_and_notify :
    (getValue none exRootAB "a.b").1 = Except.ok (.prim (.num 2))
  ∧ depAt watchedAB ["a", "b"] = some [1]
  ∧ setValue none watchedAB "a.b" (.prim (.num 5))
      = .ok (.obj [("a", [1], .obj [("b", [1], .prim (.num 5))])]) [1]
  ∧ (getValue none
        (.obj [("a", [1], .obj [("b", [1], .prim (.num 5))])]) "a.b").1
      = Except.ok (.prim (.num 5)) :=
  ⟨rfl, rfl, rfl, rfl⟩

/-- C3: for primitives `v1 != v2`, the tracked setter on a slot holding
`v1` with a duplicate-free subscriber set `d` notifies exactly the
subscribers in `d`, each exactly once (registration is deduplicated:
`addSub` is idempotent, so registering the same observer twice cannot
produce a second notification); writing back the stored value `v1` hits the
`newVal === value` short-circuit and notifies nobody. -/
theorem tracked_setter_notifies_each_subscriber_once
    (v1 v2 : Prim) (hne : v1 ≠ v2) (d : Dep) (hnd : d.Nodup) :
    (slotWrite d (.prim v1) (.prim v2)).2 = d
  ∧ (∀ w, w ∈ d → (slotWrite d (.prim v1) (.prim v2)).2.count w = 1)
  ∧ (∀ w, addSub (addSub d w) w = addSub d w)
  ∧ (slotWrite d (.prim v1) (.prim v1)).2 = [] := by
  have hstrict : strictEq (.prim v2) (.prim v1) = false := by
    simp only [strictEq, decide_eq_false_iff_not]
    exact fun hc => hne hc.symm
  have hsame : strictEq (.prim v1) (.prim v1) = true := by
    simp [strictEq]
  refine ⟨?_, ?_, fun w => addSub_idem d w, ?_⟩
  · simp [slotWrite, hstrict]
  · intro w hw
    have hns : (slotWrite d (.prim v1) (.prim v2)).2 = d := by
      simp [slotWrite, hstrict]
    rw [hns]
    exact List.count_eq_one_of_mem hnd hw
  · simp [slotWrite, hsame]

/-- C3 (witness): the theorem at `v1 = 1`, `v2 = 2`, subscriber set
`[3, 7]`. -/
theorem tracked_setter_notifies_each_subscriber_once_witness :
    (slotWrite [3, 7] (.prim (.num 1)) (.prim (.num 2))).2 = [3, 7]
  ∧ (slotWrite [3, 7] (.prim (.num 1)) (.prim (.num 2))).2.count 3 = 1
  ∧ addSub (addSub [3, 7] 7) 7 = addSub [3, 7] 7
  ∧ (slotWrite [3, 7] (.prim (.num 1)) (.prim (.num 1))).2 = [] := by
  have h := tracked_setter_notifies_each_subscriber_once
    (.num 1) (.num 2) (by decide) [3, 7] (by decide)
  exact ⟨h.1, h.2.1 3 (by decide), h.2.2.1 7, h.2.2.2⟩

/-- C4 (counterexample): the claim says `get` fails whenever an
intermediate value is missing OR not a mapping.  On `observe({a: 2})` with
path `"a.b"`, the intermediate value `2` is not a mapping, yet the code
returns `undefined` without failing: JS boxes the primitive and the
property read succeeds. -/
theorem get_on_nonmapping_intermediate_returns_ok_cex :
    (getValue none exRootPrimA "a.b").1 = Except.ok (.prim .undef)
  ∧ (getValue none exRootPrimA "a.b").1 ≠ Except.error () := by
  refine ⟨rfl, fun hc => ?_⟩
  rw [show (getValue none exRootPrimA "a.b").1 = Except.ok (.prim .undef)
    from rfl] at hc
  exact Except.noConfusion hc

/-- C4 (amended): a property read throws (the PathResolutionError /
TypeError) exactly when its container is missing — `undefined` or `null`;
a non-mapping primitive container does not itself cause failure: the read
yields `undefined`, so a path through a primitive fails only at the next
segment, if one remains.  The spec's concrete instance stands:
`get({a: {b: 2}}, "a.x.y")` fails. -/
theorem pathaccessor_failure_exactly_on_missing_reads :
    (∀ tgt u k, readProp tgt u k = .typeError
        ↔ (u = .prim .null ∨ u = .prim .undef))
  ∧ (∀ tgt n k, readProp tgt (.prim (.num n)) k
        = .ok (.prim .undef) (.prim (.num n)))
  ∧ (∀ tgt s k, readProp tgt (.prim (.str s)) k
        = .ok (.prim .undef) (.prim (.str s)))
  ∧ (∀ tgt b k, readProp tgt (.prim (.boolean b)) k
        = .ok (.prim .undef) (.prim (.boolean b)))
  ∧ (getValue none exRootAB "a.x.y").1 = Except.error () := by
  refine ⟨?_, fun tgt n k => rfl, fun tgt s k => rfl, fun tgt b k => rfl, rfl⟩
  intro tgt u k
  constructor
  · intro hr
    cases u with
    | obj fs =>
      cases hlk : lookupField fs k with
      | some e => simp [readProp, hlk] at hr
      | none => simp [readProp, hlk] at hr
    | prim p =>
      cases p with
      | num n => simp [readProp] at hr
      | str s => simp [readProp] at hr
      | boolean b => simp [readProp] at hr
      | null => exact Or.inl rfl
      | undef => exact Or.inr rfl
  · intro hu
    rcases hu with rfl | rfl
    · rfl
    · rfl

/-- C4 (witness): the amended theorem evaluated at a read on `undefined`
(throws) and a read of key `"b"` on the primitive `2` (yields `undefined`
without throwing). -/
theorem pathaccessor_failure_exactly_on_missing_reads_witness :
    readProp none (.prim .undef) "y" = .typeError
  ∧ readProp (some 1) (.prim (.num 2)) "b"
      = .ok (.prim .undef) (.prim (.num 2)) := by
  have h := pathaccessor_failure_exactly_on_missing_reads
  exact ⟨(h.1 none (.prim .undef) "y").mpr (Or.inr rfl),
    h.2.1 (some 1) 2 "b"⟩

/-- C5: a value-changing write through the tracked setter stores the new
value converted by `observe` (every own field of the attached subtree is a
tracked slot with a fresh empty SubscriberSet, hence subscribable by the
next recording read), notifies exactly the slot's current subscribers, and
a re-read performed by a notified watcher's `update()` — which runs after
the store and the recursive `observe` — already sees the converted new
value. -/
theorem value_changing_write_stores_converts_then_notifies
    (ks : List String) (u t : RVal) (nv : PlainVal) (ns : List Nat)
    (d : Dep) (oldv : RVal)
    (hok : setPath none u ks nv = .ok t ns)
    (hd : depAt u ks = some d) (hold : valAt u ks = some oldv)
    (hch : strictEq nv oldv = false) :
    valAt t ks = some (observeV nv)
  ∧ ns = d
  ∧ (∀ q, hasFieldPath nv q = true → depAt t (ks ++ q) = some [])
  ∧ (getPath none t ks).1 = Except.ok (observeV nv) := by
  obtain ⟨hdep, hns, hval⟩ := setPath_ok_spec ks u t nv ns d oldv hok hd hold
  rw [hch] at hns hval
  simp only [Bool.false_eq_true, if_false] at hns hval
  refine ⟨hval, hns, ?_, ?_⟩
  · intro q hq
    have hqne : q ≠ [] := by
      intro hc
      subst hc
      simp [hasFieldPath] at hq
    rw [depAt_append_of_valAt ks t (observeV nv) q hval hqne]
    exact depAt_observeV q nv hq
  · rw [getPath_none_of_valAt ks t (observeV nv) hval]

/-- C5 (witness): writing the fresh nested object `{x: {y: 7}}` to the
tracked slot `m` (current value 1, one subscriber 5): the stored value is
the observed conversion, the leaf slot `m.x.y` exists with a fresh empty
dep, subscriber 5 is notified, and a re-read returns the converted
value. -/
theorem value_changing_write_stores_converts_then_notifies_witness :
    valAt (.obj [("m", ([5] : Dep),
        .obj [("x", ([] : Dep), .obj [("y", ([] : Dep), .prim (.num 7))])])])
      ["m"] = some (observeV (.obj [("x", .obj [("y", .prim (.num 7))])]))
  ∧ ([5] : List Nat) = [5]
  ∧ depAt (.obj [("m", ([5] : Dep),
        .obj [("x", ([] : Dep), .obj [("y", ([] : Dep), .prim (.num 7))])])])
      ["m", "x", "y"] = some []
  ∧ (getPath none (.obj [("m", ([5] : Dep),
        .obj [("x", ([] : Dep), .obj [("y", ([] : Dep), .prim (.num 7))])])])
      ["m"]).1
      = Except.ok (observeV (.obj [("x", .obj [("y", .prim (.num 7))])])) := by
  have h := value_changing_write_stores_converts_then_notifies ["m"]
    (.obj [("m", ([5] : Dep), .prim (.num 1))])
    (.obj [("m", ([5] : Dep),
      .obj [("x", ([] : Dep), .obj [("y", ([] : Dep), .prim (.num 7))])])])
    (.obj [("x", .obj [("y", .prim (.num 7))])])
    [5] [5] (.prim (.num 1)) rfl rfl rfl rfl
  exact ⟨h.1, h.2.1, h.2.2.1 ["x", "y"] rfl, h.2.2.2⟩

/-- C6: reading a tracked slot while `Dep.target` is watcher `w` runs the
getter `Dep.target && dep.addSub(Dep.target)`: `w` becomes a member of that
slot's subscriber set, every other slot is untouched, and the stored value
is returned; a read with `Dep.target` null leaves the whole tree — hence
every subscriber set — unchanged. -/
theorem tracked_getter_subscribes_active_observer
    (fs : List (String × Dep × RVal)) (k : String) (d : Dep) (v : RVal)
    (w : Nat) (hk : lookupField fs k = some (d, v)) :
    readProp (some w) (.obj fs) k
      = .ok v (.obj (setFieldEntry fs k (addSub d w, v)))
  ∧ lookupField (setFieldEntry fs k (addSub d w, v)) k = some (addSub d w, v)
  ∧ w ∈ addSub d w
  ∧ (∀ k2, k2 ≠ k →
      lookupField (setFieldEntry fs k (addSub d w, v)) k2 = lookupField fs k2)
  ∧ (∀ (u u2 v2 : RVal) (k2 : String),
      readProp none u k2 = .ok v2 u2 → u2 = u) := by
  refine ⟨readProp_some_found fs k d v w hk,
    lookupField_setFieldEntry_self fs k _ (d, v) hk,
    mem_addSub_self d w,
    fun k2 hk2 => lookupField_setFieldEntry_ne fs k k2 _ hk2,
    ?_⟩
  intro u u2 v2 k2 hr
  cases u with
  | obj fs2 =>
    cases hlk : lookupField fs2 k2 with
    | some e =>
      obtain ⟨d2, vv⟩ := e
      rw [readProp_none_found fs2 k2 d2 vv hlk] at hr
      injection hr with h1 h2
      exact h2.symm
    | none =>
      simp only [readProp, hlk] at hr
      injection hr with h1 h2
      exact h2.symm
  | prim p =>
    cases p with
    | num n =>
      simp only [readProp] at hr
      injection hr with h1 h2
      exact h2.symm
    | str s =>
      simp only [readProp] at hr
      injection hr with h1 h2
      exact h2.symm
    | boolean b =>
      simp only [readProp] at hr
      injection hr with h1 h2
      exact h2.symm
    | null => simp [readProp] at hr
    | undef => simp [readProp] at hr

/-- C6 (witness): reading slot `b` of an object with slots `b` and `c`
while watcher 1 records subscribes 1 to `b`'s dep, leaves `c`'s dep
untouched, and a pointer-unset read of a primitive changes nothing. -/
theorem tracked_getter_subscribes_active_observer_witness :
    readProp (some 1)
      (.obj [("b", ([] : Dep), RVal.prim (.num 2)),
             ("c", ([9] : Dep), RVal.prim (.num 3))]) "b"
      = .ok (.prim (.num 2))
          (.obj (setFieldEntry
            [("b", ([] : Dep), RVal.prim (.num 2)),
             ("c", ([9] : Dep), RVal.prim (.num 3))] "b"
            (addSub [] 1, .prim (.num 2))))
  ∧ 1 ∈ addSub ([] : Dep) 1
  ∧ lookupField (setFieldEntry
        [("b", ([] : Dep), RVal.prim (.num 2)),
         ("c", ([9] : Dep), RVal.prim (.num 3))] "b"
        (addSub [] 1, .prim (.num 2))) "c"
      = lookupField [("b", ([] : Dep), RVal.prim (.num 2)),
         ("c", ([9] : Dep), RVal.prim (.num 3))] "c"
  ∧ (RVal.prim (.num 7) : RVal) = .prim (.num 7) := by
  have h := tracked_getter_subscribes_active_observer
    [("b", ([] : Dep), RVal.prim (.num 2)),
     ("c", ([9] : Dep), RVal.prim (.num 3))]
    "b" [] (.prim (.num 2)) 1 rfl
  exact ⟨h.1, h.2.2.1, h.2.2.2.1 "c" (by decide),
    h.2.2.2.2 (.prim (.num 7)) (.prim (.num 7)) (.prim .undef) "z" rfl⟩

/-- C7: a successful write through a tracked slot leaves that slot's
SubscriberSet untouched — `defineReactive` creates the `Dep` once, in the
closure, and the setter never replaces it — so a subscriber registered
before the reassignment is still notified by the next value-changing
write. -/
theorem slot_dep_persists_across_writes
    (ks : List String) (u t : RVal) (nv : PlainVal) (ns : List Nat)
    (d : Dep) (oldv : RVal)
    (hok : setPath none u ks nv = .ok t ns)
    (hd : depAt u ks = some d) (hold : valAt u ks = some oldv) :
    depAt t ks = some d
  ∧ (∀ nv2 t2 ns2 oldv2,
      setPath none t ks nv2 = .ok t2 ns2 →
      valAt t ks = some oldv2 →
      strictEq nv2 oldv2 = false →
      ns2 = d) := by
  obtain ⟨hdep, hns1, hval1⟩ := setPath_ok_spec ks u t nv ns d oldv hok hd hold
  refine ⟨hdep, ?_⟩
  intro nv2 t2 ns2 oldv2 hok2 hold2 hch2
  obtain ⟨hdep2, hns2, hval2⟩ :=
    setPath_ok_spec ks t t2 nv2 ns2 d oldv2 hok2 hdep hold2
  rw [hch2] at hns2
  simpa using hns2

/-- C7 (witness): the slot `m` with subscriber 1 keeps dep `[1]` across the
write `1 => 2`, and the follow-up write `2 => 3` notifies `[1]`. -/
theorem slot_dep_persists_across_writes_witness :
    depAt (.obj [("m", ([1] : Dep), .prim (.num 2))]) ["m"] = some [1]
  ∧ ([1] : List Nat) = [1] := by
  have h := slot_dep_persists_across_writes ["m"]
    (.obj [("m", ([1] : Dep), .prim (.num 1))])
    (.obj [("m", ([1] : Dep), .prim (.num 2))])
    (.prim (.num 2)) [1] [1] (.prim (.num 1)) rfl rfl rfl
  exact ⟨h.1, h.2 (.prim (.num 3))
    (.obj [("m", ([1] : Dep), .prim (.num 3))]) [1] (.prim (.num 2))
    rfl rfl rfl⟩

/-- C8 (counterexample): the claim says `notifyAll` iterates a snapshot and
never visits an observer added during the pass.  The code iterates the live
JS `Set` (`this.subs.forEach`): starting from subscribers `[1]`, if watcher
1's update adds watcher 2 to the same set (a callback constructing a new
`Watcher` on the same path does exactly this), the pass visits `[1, 2]` —
watcher 2 was not subscribed when notification began. -/
theorem notify_visits_observer_added_mid_pass_cex :
    depNotify 3 [1] updAddTwo = [1, 2]
  ∧ 2 ∈ depNotify 3 [1] updAddTwo
  ∧ 2 ∉ ([1] : List Nat) := by
  refine ⟨rfl, ?_, by decide⟩
  rw [show depNotify 3 [1] updAddTwo = [1, 2] from rfl]
  decide

/-- C8 (amended): `notifyAll` iterates the live set, not a snapshot.  Under
the effects actually possible in this core — updates can only grow the set
(there is no unsubscribe) and growth goes through deduplicating `addSub` —
the iteration does not crash and does not skip: every observer subscribed
when notification begins is visited, first and in insertion order, exactly
once; but (per the counterexample) observers added during the pass are
visited too. -/
theorem notify_live_iteration_spec (upd : Nat → List Nat → List Nat)
    (subs : List Nat) (fuel : Nat)
    (hgrow : ∀ w s, s <+: upd w s)
    (hpres : ∀ w s, s.Nodup → (upd w s).Nodup)
    (hnd : subs.Nodup) (hfuel : subs.length ≤ fuel) :
    subs <+: depNotify fuel subs upd
  ∧ (∀ w, w ∈ subs → (depNotify fuel subs upd).count w = 1) := by
  have h1 : subs <+: depNotify fuel subs upd := by
    have h := forEachNotify_visits_take upd hgrow fuel 0 subs [] subs.length
      le_rfl (by omega)
    simpa [depNotify, List.take_length] using h
  refine ⟨h1, ?_⟩
  intro w hw
  obtain ⟨m, sf, heq, hsfnd⟩ :=
    forEachNotify_visited_take_form upd hgrow hpres fuel 0 subs hnd
  have hdn : depNotify fuel subs upd = sf.take m := by
    have h0 : subs.take 0 = ([] : List Nat) := rfl
    rw [depNotify, ← h0, heq]
  have hnd2 : (depNotify fuel subs upd).Nodup := by
    rw [hdn]
    exact List.Nodup.sublist (List.take_sublist m sf) hsfnd
  exact List.count_eq_one_of_mem hnd2 (h1.sublist.subset hw)

/-- C8 (witness): the amended theorem at subscriber list `[1]` and the
growing update effect `updAddTwo`. -/
theorem notify_live_iteration_spec_witness :
    ([1] : List Nat) <+: depNotify 3 [1] updAddTwo
  ∧ (depNotify 3 [1] updAddTwo).count 1 = 1 := by
  have h := notify_live_iteration_spec updAddTwo [1] 3
    (fun w s => by
      unfold updAddTwo
      split
      · exact addSub_grow s 2
      · exact ⟨[], List.append_nil s⟩)
    (fun w s hs => by
      unfold updAddTwo
      split
      · exact addSub_nodup s 2 hs
      · exact hs)
    (by decide) (by decide)
  exact ⟨h.1, h.2 1 (by decide)⟩

/-- C10: when every intermediate segment resolves to a mapping and only
the final segment is absent from its container, `getValue` returns
`undefined`, raises no error, and leaves the tree unchanged — the throw
happens only when a segment is read from a missing (`undefined`/`null`)
value, never merely because the final key is absent. -/
theorem get_missing_final_segment_returns_undefined
    (u : RVal) (qs : List String) (k : String)
    (fs : List (String × Dep × RVal))
    (hval : valAt u qs = some (.obj fs)) (habs : lookupField fs k = none) :
    getPath none u (qs ++ [k]) = (Except.ok (.prim .undef), u) := by
  induction qs generalizing u with
  | nil =>
    simp only [valAt, Option.some.injEq] at hval
    subst hval
    have hread : readProp none (.obj fs) k = .ok (.prim .undef) (.obj fs) := by
      simp [readProp, habs]
    rw [List.nil_append]
    have hgp : getPath none (.obj fs) [k]
        = ((getPath none (.prim .undef) []).1,
           patchVal (.obj fs) k (getPath none (.prim .undef) []).2) := by
      simp only [getPath, hread]
    rw [hgp]
    simp only [getPath, patchVal, patchFields_absent fs k _ habs]
  | cons q qs2 ih =>
    cases u with
    | prim p => simp [valAt] at hval
    | obj fs0 =>
      cases hlk : lookupField fs0 q with
      | none => simp [valAt, hlk] at hval
      | some e =>
        obtain ⟨d0, x⟩ := e
        rw [valAt_cons_found fs0 q d0 x hlk] at hval
        have hgp : getPath none (.obj fs0) ((q :: qs2) ++ [k])
            = ((getPath none x (qs2 ++ [k])).1,
               patchVal (.obj fs0) q (getPath none x (qs2 ++ [k])).2) := by
          simp only [List.cons_append, getPath,
            readProp_none_found fs0 q d0 x hlk]
          rfl
        rw [hgp, ih x hval]
        simp only [patchVal, patchFields_self fs0 q d0 x hlk]

/-- C10 (witness): `get({a: {b: 2}}, "a.x")` — the final segment `x` is
absent from the mapping `root.a` — returns `undefined` with no error and no
tree change. -/
theorem get_missing_final_segment_returns_undefined_witness :
    getPath none exRootAB ["a", "x"] = (Except.ok (.prim .undef), exRootAB) := by
  have h := get_missing_final_segment_returns_undefined exRootAB ["a"] "x"
    [("b", [], .prim (.num 2))] rfl rfl
  exact h
